import Mathlib

/-!
# miniulid — a shallow embedding in Lean 4

This file embeds the Go package `miniulid` (files `miniulid.go` and the
random-variant file) and proves properties of the embedded definitions.

Conventions of the embedding:
* Go `uint64`/`uint16` values are modelled as `Nat`; every arithmetic step
  of the source stays below the corresponding word size on the inputs we
  consider, so no wrap-around modelling is needed (this is argued at each
  definition).
* A Go `time.Time` is modelled as the integer number of nanoseconds between
  the instant (converted to UTC) and the package epoch 2020-01-01T00:00:00Z,
  as an `Int`.  Go's calendar is the proleptic Gregorian calendar with
  uniform 86400-second days and no leap seconds, so civil fields (`Hour`,
  `Minute`) and `Truncate` are exact integer computations on this offset.
* Go strings are byte sequences; the inputs we consider are Lean `String`s /
  `List Char` (valid Unicode).  `len s` in Go is the UTF-8 byte length,
  modelled by `goLen`; `for _, r := range s` iterates the runes, i.e. the
  `Char`s of the list; `byte(r)` truncates a rune to its low 8 bits,
  modelled by `byteOf`.
* Fallible Go functions returning `(T, error)` become `Except Err T`.
-/

namespace Miniulid

/-- The error values of the package (`errTimePast`, `errTimeFuture`,
`errInvalidChar` wrapped with the offending byte, `errLength`, the counter
value overflow of `GenerateWithComponents`, and the per-minute counter
overflow of `minuteCounter.next`). -/
inductive Err where
  | errTimePast : Err
  | errTimeFuture : Err
  | errInvalidChar : Nat → Err
  | errLength : Err
  | counterValueOverflow : Err
  | counterOverflow : Err
  deriving DecidableEq, Repr

/-- Decidable equality of results, for concrete evaluations. -/
instance : DecidableEq (Except Err Nat) := fun a b =>
  match a, b with
  | .ok x, .ok y => if h : x = y then .isTrue (by rw [h]) else .isFalse (by simp [h])
  | .error e, .error f => if h : e = f then .isTrue (by rw [h]) else .isFalse (by simp [h])
  | .ok _, .error _ => .isFalse (by simp)
  | .error _, .ok _ => .isFalse (by simp)

/-- Decidable equality of `splitTime` results, for concrete evaluations. -/
instance : DecidableEq (Except Err (Nat × Nat)) := fun a b =>
  match a, b with
  | .ok x, .ok y => if h : x = y then .isTrue (by rw [h]) else .isFalse (by simp [h])
  | .error e, .error f => if h : e = f then .isTrue (by rw [h]) else .isFalse (by simp [h])
  | .ok _, .error _ => .isFalse (by simp)
  | .error _, .ok _ => .isFalse (by simp)

/-- `daysBits = 15` -/
def daysBits : Nat := 15

/-- `minutesBits = 11` -/
def minutesBits : Nat := 11

/-- `counterBits = 14` (named `randomBits` in the random-variant file). -/
def counterBits : Nat := 14

/-- `counterMask = (1 << counterBits) - 1` -/
def counterMask : Nat := (1 <<< counterBits) - 1

/-- `minutesMask = (1 << minutesBits) - 1` -/
def minutesMask : Nat := (1 <<< minutesBits) - 1

/-- `daysMask = (1 << daysBits) - 1` -/
def daysMask : Nat := (1 <<< daysBits) - 1

/-- `totalBits = daysBits + minutesBits + counterBits` -/
def totalBits : Nat := daysBits + minutesBits + counterBits

/-- `totalSize = 8` -/
def totalSize : Nat := 8

/-- `encodeAlphabet = "0123456789ABCDEFGHJKMNPQRSTVWXYZ"` as its rune list. -/
def encodeAlphabet : List Char := "0123456789ABCDEFGHJKMNPQRSTVWXYZ".data

/-- `byte(r)` for a rune `r`: truncation to the low 8 bits. -/
def byteOf (c : Char) : Nat := c.toNat % 256

/-- Go `len` of a string: its UTF-8 byte length. -/
def goLen (s : List Char) : Nat := (s.map Char.utf8Size).sum

/-- The `decodeAlphabet` map, keyed by byte value.  This transliterates the
literal map of the random-variant file; the builder in `miniulid.go`
(canonical characters, the lowercase of each letter, then the
`i/I/l/L → 1`, `o/O → 0` aliases) produces exactly the same map. -/
def decodeTable : List (Nat × Nat) :=
  [('0'.toNat, 0), ('1'.toNat, 1), ('2'.toNat, 2), ('3'.toNat, 3), ('4'.toNat, 4),
   ('5'.toNat, 5), ('6'.toNat, 6), ('7'.toNat, 7), ('8'.toNat, 8), ('9'.toNat, 9),
   ('A'.toNat, 10), ('B'.toNat, 11), ('C'.toNat, 12), ('D'.toNat, 13), ('E'.toNat, 14),
   ('F'.toNat, 15), ('G'.toNat, 16), ('H'.toNat, 17), ('J'.toNat, 18), ('K'.toNat, 19),
   ('M'.toNat, 20), ('N'.toNat, 21), ('P'.toNat, 22), ('Q'.toNat, 23), ('R'.toNat, 24),
   ('S'.toNat, 25), ('T'.toNat, 26), ('V'.toNat, 27), ('W'.toNat, 28), ('X'.toNat, 29),
   ('Y'.toNat, 30), ('Z'.toNat, 31), ('a'.toNat, 10), ('b'.toNat, 11), ('c'.toNat, 12),
   ('d'.toNat, 13), ('e'.toNat, 14), ('f'.toNat, 15), ('g'.toNat, 16), ('h'.toNat, 17),
   ('j'.toNat, 18), ('k'.toNat, 19), ('m'.toNat, 20), ('n'.toNat, 21), ('p'.toNat, 22),
   ('q'.toNat, 23), ('r'.toNat, 24), ('s'.toNat, 25), ('t'.toNat, 26), ('v'.toNat, 27),
   ('w'.toNat, 28), ('x'.toNat, 29), ('y'.toNat, 30), ('z'.toNat, 31), ('i'.toNat, 1),
   ('I'.toNat, 1), ('l'.toNat, 1), ('L'.toNat, 1), ('o'.toNat, 0), ('O'.toNat, 0)]

/-- Lookup in `decodeAlphabet`: `v, ok := decodeAlphabet[c]`. -/
def decodeAlphabet (b : Nat) : Option Nat :=
  Option.map Prod.snd (decodeTable.find? (fun p => p.1 == b))

/-- The per-character loop of `Parse`: accumulate `value = value<<5 | v`,
failing with `errInvalidChar` (wrapping the byte) at the first byte not in
the map.  Every intermediate `value` stays below `2^40 < 2^64`, so `uint64`
arithmetic is exact. -/
def parseLoop : List Char → Nat → Except Err Nat
  | [], value => .ok value
  | c :: rest, value =>
    match decodeAlphabet (byteOf c) with
    | none => .error (.errInvalidChar (byteOf c))
    | some v => parseLoop rest ((value <<< 5) ||| v)

/-- `Parse(encoded string) (ID, error)`: length check (Go `len`, i.e. UTF-8
bytes) then the accumulation loop. -/
def Parse (s : List Char) : Except Err Nat :=
  if goLen s ≠ totalSize then .error .errLength else parseLoop s 0

/-- `encodeAlphabet[v]` for `v < 32` (the index is always `value & 31`). -/
def encChar (v : Nat) : Char := encodeAlphabet.getD v '0'

/-- The loop of `ID.String()`: `for i := totalSize-1; i >= 0; i--` writes
`encodeAlphabet[value&31]` into `buf[i]` and shifts `value` right by 5, so
each iteration prepends one character to the already-built suffix. -/
def encodeLoop : Nat → Nat → List Char → List Char
  | 0, _, acc => acc
  | n + 1, value, acc => encodeLoop n (value >>> 5) (encChar (value &&& 31) :: acc)

/-- `ID.String()`: the Crockford Base32 form, 8 characters. -/
def idString (id : Nat) : List Char := encodeLoop totalSize id []

/-- `ID.Components()`: counter = low 14 bits, minuteOfDay = next 11 bits,
days = next 15 bits, returned as `(days, minuteOfDay, counter)`. -/
def Components (id : Nat) : Nat × Nat × Nat :=
  (((id >>> counterBits) >>> minutesBits) &&& daysMask,
   (id >>> counterBits) &&& minutesMask,
   id &&& counterMask)

/-! ## The time model

Go's `time` package uses the proleptic Gregorian calendar with uniform
86400-second days (no leap seconds).  We model a UTC instant by its signed
nanosecond offset from the package epoch `2020-01-01T00:00:00Z`, and build
such offsets from civil dates with the standard Gregorian day count. -/

/-- Nanoseconds in a minute. -/
def nanosPerMinute : Nat := 60 * 1000000000

/-- Nanoseconds in an hour. -/
def nanosPerHour : Nat := 3600 * 1000000000

/-- Nanoseconds in a day. -/
def nanosPerDay : Nat := 86400 * 1000000000

/-- Gregorian leap-year test. -/
def isLeap (y : Nat) : Bool := (y % 4 == 0 && y % 100 != 0) || y % 400 == 0

/-- Days from 0001-01-01 to the first day of year `y` (proleptic Gregorian,
`y ≥ 1`). -/
def daysBeforeYear (y : Nat) : Nat :=
  365 * (y - 1) + (y - 1) / 4 - (y - 1) / 100 + (y - 1) / 400

/-- Days from January 1 to the first day of month `m` in a year whose
leap-ness is `leap`. -/
def daysBeforeMonth (leap : Bool) (m : Nat) : Nat :=
  match m with
  | 1 => 0
  | 2 => 31
  | 3 => 59 + (if leap then 1 else 0)
  | 4 => 90 + (if leap then 1 else 0)
  | 5 => 120 + (if leap then 1 else 0)
  | 6 => 151 + (if leap then 1 else 0)
  | 7 => 181 + (if leap then 1 else 0)
  | 8 => 212 + (if leap then 1 else 0)
  | 9 => 243 + (if leap then 1 else 0)
  | 10 => 273 + (if leap then 1 else 0)
  | 11 => 304 + (if leap then 1 else 0)
  | _ => 334 + (if leap then 1 else 0)

/-- Days from 0001-01-01 (Go's zero time) to the civil date `y-m-d`. -/
def absDays (y m d : Nat) : Nat := daysBeforeYear y + daysBeforeMonth (isLeap y) m + (d - 1)

/-- Days from Go's zero time to the package epoch 2020-01-01. -/
def epochAbsDays : Nat := absDays 2020 1 1

/-- The UTC instant `y-m-d hh:mm:ss.ns` as nanoseconds since the package
epoch. -/
def mkUTC (y m d hh mm ss ns : Nat) : Int :=
  ((absDays y m d : Int) - (epochAbsDays : Int)) * (nanosPerDay : Int) +
    (hh * nanosPerHour + mm * nanosPerMinute + ss * 1000000000 + ns : Nat)

/-- `utc.Hour()` for an instant `t ≥ 0` (ns since the epoch, which is a UTC
midnight): the hour of the UTC civil day. -/
def goHour (t : Int) : Nat := t.toNat / nanosPerHour % 24

/-- `utc.Minute()` for an instant `t ≥ 0`: the minute of the UTC hour. -/
def goMinute (t : Int) : Nat := t.toNat / nanosPerMinute % 60

/-- `splitTime(t)`: past-epoch check, day count with its 15-bit range check,
and `minuteOfDay = Hour()*60 + Minute()`.  `utc.Before(epoch)` is `t < 0`;
`utc.Sub(epoch) / (24*time.Hour)` is the floor day quotient (the duration is
non-negative here; `Sub`'s saturation at ~292 years only affects instants
whose day count is far beyond the 15-bit range, where the result is the same
`errTimeFuture`). -/
def splitTime (t : Int) : Except Err (Nat × Nat) :=
  if t < 0 then .error .errTimePast
  else
    if 1 <<< daysBits ≤ t.toNat / nanosPerDay then .error .errTimeFuture
    else .ok (t.toNat / nanosPerDay, goHour t * 60 + goMinute t)

/-- `GenerateWithComponents(t, counter)`: reject `counter > counterMask`,
split the time, and pack `days<<25 | minuteOfDay<<14 | counter`.  All
values fit in 40 bits, so `uint64` arithmetic is exact. -/
def GenerateWithComponents (t : Int) (counter : Nat) : Except Err Nat :=
  if counterMask < counter then .error .counterValueOverflow
  else
    match splitTime t with
    | .error e => .error e
    | .ok (dayCount, minuteOfDay) =>
      .ok ((dayCount <<< (minutesBits + counterBits)) |||
           (minuteOfDay <<< counterBits) ||| counter)

/-- `random14(entropy)` in the random-variant file, after a successful
2-byte read `buffer = [b0, b1]`:
`uint16(buffer[0])<<8 | uint16(buffer[1])&randomMask`.
Go's `&` binds tighter than `|`, so the mask applies to `buffer[1]` alone;
`b0<<8 ≤ 0xFF00` so `uint16` arithmetic is exact. -/
def random14 (b0 b1 : Nat) : Nat := (b0 <<< 8) ||| (b1 &&& counterMask)

/-- `GenerateWithTime(t, entropy)` of the random-variant file, after a
successful 2-byte entropy read `[b0, b1]`: split the time, draw
`random14`, and pack. -/
def GenerateWithTime (t : Int) (b0 b1 : Nat) : Except Err Nat :=
  match splitTime t with
  | .error e => .error e
  | .ok (dayCount, minuteOfDay) =>
    .ok ((dayCount <<< (minutesBits + counterBits)) |||
         (minuteOfDay <<< counterBits) ||| random14 b0 b1)

/-! ## The per-minute counter

`minuteCounter` holds a `time.Time` (`minute`) and a `uint16` (`value`).
We model the stored `minute` by its index in minutes since Go's zero time
0001-01-01T00:00:00Z: `t.UTC().Truncate(time.Minute)` rounds down to a
multiple of a minute since the zero time, and the zero `time.Time` (the
`IsZero` sentinel of an uninitialized counter) has index 0.  The mutex
serializes calls; each call is modelled as a state transition. -/

/-- The minute index (minutes since Go's zero time) of the instant `t`
(ns since the package epoch): `t.UTC().Truncate(time.Minute)`. -/
def goMinuteIndex (t : Int) : Int :=
  (t + (epochAbsDays : Int) * (nanosPerDay : Int)).fdiv (nanosPerMinute : Int)

/-- The state of a `minuteCounter`: the stored minute (index since the zero
time; 0 is the zero-`time.Time` sentinel of the fresh counter) and the last
issued value. -/
structure minuteCounter where
  minute : Int
  value : Nat
  deriving DecidableEq, Repr

/-- The zero value `&minuteCounter{}`. -/
def freshCounter : minuteCounter := ⟨0, 0⟩

/-- `minuteCounter.next(t)`: reset to `(currentMinute, 0)` when the stored
minute `IsZero` or differs from `t`'s minute; otherwise fail at
`value == counterMask` or increment and return.  Returns the result and the
post-call state. -/
def minuteCounter.next (mc : minuteCounter) (t : Int) : Except Err Nat × minuteCounter :=
  if mc.minute = 0 ∨ mc.minute ≠ goMinuteIndex t then
    (.ok 0, ⟨goMinuteIndex t, 0⟩)
  else if mc.value = counterMask then
    (.error .counterOverflow, mc)
  else
    (.ok (mc.value + 1), ⟨mc.minute, mc.value + 1⟩)

/-- A sequence of `next` calls, collecting the results and threading the
state. -/
def runCalls (mc : minuteCounter) : List Int → List (Except Err Nat) × minuteCounter
  | [] => ([], mc)
  | t :: ts =>
    ((minuteCounter.next mc t).1 :: (runCalls (minuteCounter.next mc t).2 ts).1,
      (runCalls (minuteCounter.next mc t).2 ts).2)

/-! ## Arithmetic helpers -/

/-- Concatenating disjoint bit ranges: `(a <<< k) ||| b = a * 2^k + b`
when `b` fits in `k` bits. -/
theorem lor_shiftLeft_eq_add (a b k : Nat) (hb : b < 2 ^ k) :
    (a <<< k) ||| b = a * 2 ^ k + b := by
  apply Nat.eq_of_testBit_eq
  intro j
  rw [Nat.testBit_lor, Nat.testBit_shiftLeft, Nat.mul_comm a (2 ^ k),
    Nat.testBit_mul_pow_two_add a hb j]
  by_cases h : j < k
  · have h' : ¬ k ≤ j := by omega
    simp [h, h']
  · have hk : k ≤ j := by omega
    have hbj : b < 2 ^ j := lt_of_lt_of_le hb (Nat.pow_le_pow_right (by norm_num) hk)
    simp [h, hk, Nat.testBit_lt_two_pow hbj]

/-- The packed value `days<<25 | minuteOfDay<<14 | counter` as plain
arithmetic, for in-range `minuteOfDay` and `counter`. -/
theorem pack_eq (d m c : Nat) (hm : m < 2048) (hc : c < 16384) :
    (d <<< (minutesBits + counterBits)) ||| (m <<< counterBits) ||| c
      = d * 33554432 + m * 16384 + c := by
  rw [Nat.lor_assoc]
  have h1 : (m <<< counterBits) ||| c = m * 16384 + c := by
    have := lor_shiftLeft_eq_add m c 14 (by norm_num [hc])
    simpa [counterBits] using this
  rw [h1]
  have h2 : (d <<< (minutesBits + counterBits)) ||| (m * 16384 + c)
      = d * 33554432 + (m * 16384 + c) := by
    have := lor_shiftLeft_eq_add d (m * 16384 + c) 25 (by norm_num; omega)
    simpa [minutesBits, counterBits] using this
  rw [h2]
  omega

/-- Unpacking a packed triple recovers it. -/
theorem components_pack (d m c : Nat) (hd : d < 32768) (hm : m < 2048) (hc : c < 16384) :
    Components (d * 33554432 + m * 16384 + c) = (d, m, c) := by
  simp only [Components, counterBits, minutesBits, daysBits, counterMask, minutesMask,
    daysMask, Nat.shiftRight_eq_div_pow, Nat.one_shiftLeft, Nat.and_pow_two_sub_one_eq_mod,
    Prod.mk.injEq]
  norm_num
  omega

/-- Inversion of a successful `splitTime`: the day count is the floor day
quotient and is below `2^15`, and the minute of day is `Hour()*60 + Minute()`
and at most 1439. -/
theorem splitTime_ok_inv {t : Int} {d m : Nat} (h : splitTime t = .ok (d, m)) :
    0 ≤ t ∧ d = t.toNat / nanosPerDay ∧ d < 32768 ∧
      m = goHour t * 60 + goMinute t ∧ m ≤ 1439 := by
  unfold splitTime at h
  split_ifs at h with h1 h2
  have h' : (t.toNat / nanosPerDay, goHour t * 60 + goMinute t) = (d, m) :=
    Except.ok.inj h
  injection h' with hd hm
  have hh : goHour t < 24 := Nat.mod_lt _ (by norm_num)
  have hmm : goMinute t < 60 := Nat.mod_lt _ (by norm_num)
  have h2' : t.toNat / nanosPerDay < 32768 := by
    have h15 : (1 <<< daysBits : Nat) = 32768 := by decide
    omega
  exact ⟨by omega, hd.symm, by omega, hm.symm, by omega⟩

/-! ## Claims -/

/-- C1: the spec claims `random14` returns `((byte0 << 8) | byte1) & 0x3FFF`,
at most 16383.  In the code Go's `&` binds tighter than `|`, so the mask
falls on `byte1` alone and the top 2 bits of the draw are kept: on the
entropy bytes `(0x40, 0x00)` the code returns `16384` where the spec's
formula gives `0`, and the overflowing bit corrupts the minuteOfDay field of
the packed ID (930 becomes 931 for the example instant). -/
theorem C1_random14_keeps_top_bits :
    random14 64 0 = 16384 ∧
    ¬ random14 64 0 ≤ 16383 ∧
    ((64 <<< 8 ||| 0) &&& 16383 : Nat) = 0 ∧
    GenerateWithTime (mkUTC 2024 8 18 15 30 0 0) 64 0
      = .ok ((1691 <<< 25) ||| (931 <<< 14)) ∧
    Components ((1691 <<< 25) ||| (931 <<< 14)) = (1691, 931, 0) := by
  exact ⟨by decide, by decide, by decide, by decide, by decide⟩

/-- C2 (amended): for 2024-08-18T15:30:00Z with discriminator 1234 the code
yields days-since-epoch 1691 (not 1689), minuteOfDay 930, packed integer
`1691<<25 | 930<<14 | 1234 = 56755782866`, encoded text `"1MVEH16J"`, and
parsing the lowercase `"1mveh16j"` returns the same packed integer. -/
theorem C2_example_scenario :
    splitTime (mkUTC 2024 8 18 15 30 0 0) = .ok (1691, 930) ∧
    GenerateWithComponents (mkUTC 2024 8 18 15 30 0 0) 1234
      = .ok ((1691 <<< 25) ||| (930 <<< 14) ||| 1234) ∧
    ((1691 <<< 25) ||| (930 <<< 14) ||| 1234 : Nat) = 56755782866 ∧
    idString 56755782866 = "1MVEH16J".data ∧
    Parse "1mveh16j".data = .ok 56755782866 := by
  exact ⟨by decide, by decide, by decide, by decide, by decide⟩

/-- C2 as stated is false: the timestamp 2024-08-18T15:30:00Z is 1691 days
after the epoch, not 1689, so the claimed scenario fails at its first step
(the claimed encoded text `"0F5VD3YH"` does not match either packing). -/
theorem C2_counterexample :
    ¬ (splitTime (mkUTC 2024 8 18 15 30 0 0) = .ok (1689, 930) ∧
       GenerateWithComponents (mkUTC 2024 8 18 15 30 0 0) 1234
         = .ok ((1689 <<< 25) ||| (930 <<< 14) ||| 1234) ∧
       idString ((1689 <<< 25) ||| (930 <<< 14) ||| 1234) = "0F5VD3YH".data ∧
       Parse "0f5vd3yh".data = .ok ((1689 <<< 25) ||| (930 <<< 14) ||| 1234)) := by
  intro h
  exact absurd h.1 (by decide)

/-- C5: `splitTime` fails with the past-epoch error exactly on instants
before the epoch; otherwise it fails with the future-range error exactly
when the floor day count reaches 2^15; in all remaining cases it returns
that day count together with `Hour()*60 + Minute()`, which is at most
1439. -/
theorem C5_splitTime_cases (t : Int) :
    (splitTime t = .error .errTimePast ↔ t < 0) ∧
    (splitTime t = .error .errTimeFuture ↔ (0 ≤ t ∧ 32768 ≤ t.toNat / nanosPerDay)) ∧
    ((0 ≤ t ∧ t.toNat / nanosPerDay < 32768) ↔
       splitTime t = .ok (t.toNat / nanosPerDay, goHour t * 60 + goMinute t)) ∧
    (∀ d m, splitTime t = .ok (d, m) → m = goHour t * 60 + goMinute t ∧ m ≤ 1439) := by
  have h15 : (1 <<< daysBits : Nat) = 32768 := by decide
  refine ⟨?_, ?_, ?_, fun d m h => ?_⟩
  · unfold splitTime
    split_ifs with h1 h2 <;> simp_all
  · unfold splitTime
    split_ifs with h1 h2 <;> simp_all
  · unfold splitTime
    split_ifs with h1 h2 <;> simp_all
  · obtain ⟨_, _, _, hm, hle⟩ := splitTime_ok_inv h
    exact ⟨hm, hle⟩

/-- Witness for C5: an instant one second before the epoch fails with the
past-epoch error. -/
theorem C5_witness :
    splitTime (mkUTC 2019 12 31 23 59 59 0) = .error .errTimePast :=
  (C5_splitTime_cases (mkUTC 2019 12 31 23 59 59 0)).1.mpr (by decide)

/-- C7: for any counter value at most 16383 and any timestamp that splits
successfully to `(days, minuteOfDay)`, `GenerateWithComponents` succeeds and
the resulting ID unpacks through `Components` to exactly
`(days, minuteOfDay, counter)`. -/
theorem C7_components_roundtrip (t : Int) (d m c : Nat)
    (hc : c ≤ 16383) (hs : splitTime t = .ok (d, m)) :
    ∃ id, GenerateWithComponents t c = .ok id ∧ Components id = (d, m, c) := by
  obtain ⟨ht, hd, hdlt, hm, hmle⟩ := splitTime_ok_inv hs
  refine ⟨d * 33554432 + m * 16384 + c, ?_, ?_⟩
  · unfold GenerateWithComponents
    have hcm : (counterMask : Nat) = 16383 := by decide
    rw [if_neg (by omega), hs]
    exact congrArg Except.ok (pack_eq d m c (by omega) (by omega))
  · exact components_pack d m c hdlt (by omega) (by omega)

/-- Witness for C7 at 2030-01-02T03:04:05.000000006Z with counter 77. -/
theorem C7_witness :
    ∃ id, GenerateWithComponents (mkUTC 2030 1 2 3 4 5 6) 77 = .ok id ∧
      Components id = (3654, 184, 77) :=
  C7_components_roundtrip (mkUTC 2030 1 2 3 4 5 6) 3654 184 77
    (by decide) (by decide)

/-! ## Counter claims -/

/-- `runCalls` over an appended list runs the first part, then the second
from the reached state. -/
theorem runCalls_append (mc : minuteCounter) (l1 l2 : List Int) :
    runCalls mc (l1 ++ l2) =
      ((runCalls mc l1).1 ++ (runCalls (runCalls mc l1).2 l2).1,
        (runCalls (runCalls mc l1).2 l2).2) := by
  induction l1 generalizing mc with
  | nil => simp [runCalls]
  | cons t ts ih => simp [runCalls, ih]

/-- Within one established minute `M ≠ 0`, as long as the counter stays
below `counterMask`, each call increments and returns the new value. -/
theorem runCalls_same_minute (M : Int) (hM : M ≠ 0) :
    ∀ (ts : List Int) (v : Nat), (∀ t ∈ ts, goMinuteIndex t = M) →
      v + ts.length ≤ 16383 →
      runCalls ⟨M, v⟩ ts = ((List.range' (v + 1) ts.length).map .ok, ⟨M, v + ts.length⟩) := by
  intro ts
  induction ts with
  | nil => intro v _ _; simp [runCalls]
  | cons t ts ih =>
    intro v hmem hlen
    have hmt : goMinuteIndex t = M := hmem t (by simp)
    have hcm : (counterMask : Nat) = 16383 := by decide
    have hnext : minuteCounter.next ⟨M, v⟩ t = (.ok (v + 1), ⟨M, v + 1⟩) := by
      unfold minuteCounter.next
      rw [if_neg (by simp [hmt, hM]), if_neg (by simp at hlen ⊢; omega)]
    have hrest := ih (v + 1) (fun u hu => hmem u (List.mem_cons_of_mem _ hu)) (by
      simp at hlen ⊢; omega)
    simp only [runCalls, hnext, hrest, List.range'_succ, List.map_cons, List.length_cons]
    rw [show v + 1 + ts.length = v + (ts.length + 1) from by omega]

/-- The first call on a fresh counter at minute `M` resets and returns 0. -/
theorem next_fresh (t : Int) :
    minuteCounter.next freshCounter t = (.ok 0, ⟨goMinuteIndex t, 0⟩) := by
  unfold minuteCounter.next freshCounter
  rw [if_pos (Or.inl rfl)]

/-- C3 (amended): from a fresh counter, 16385 calls whose timestamps all
fall in one minute `M` — any minute other than Go's zero time, whose
`time.Time` value doubles as the counter's uninitialized sentinel — return
`0, 1, ..., 16383` in order and then the counter-overflow error. -/
theorem C3_counter_exhaustion (M : Int) (hM : M ≠ 0) (ts : List Int)
    (hlen : ts.length = 16385) (hts : ∀ t ∈ ts, goMinuteIndex t = M) :
    (runCalls freshCounter ts).1
      = (List.range 16384).map .ok ++ [.error .counterOverflow] := by
  cases ts with
  | nil => simp at hlen
  | cons t0 rest =>
    have h0 : goMinuteIndex t0 = M := hts t0 (by simp)
    have hrestlen : rest.length = 16384 := by simpa using hlen
    have hsplit : rest.take 16383 ++ rest.drop 16383 = rest := List.take_append_drop _ _
    have hlen1 : (rest.take 16383).length = 16383 := by
      rw [List.length_take]; omega
    have hlen2 : (rest.drop 16383).length = 1 := by
      rw [List.length_drop]; omega
    obtain ⟨tl, htl⟩ := List.length_eq_one.mp hlen2
    have hmem1 : ∀ u ∈ rest.take 16383, goMinuteIndex u = M := fun u hu =>
      hts u (List.mem_cons_of_mem _ (List.mem_of_mem_take hu))
    have hmemtl : goMinuteIndex tl = M := by
      have htlmem : tl ∈ rest.drop 16383 := by rw [htl]; simp
      exact hts tl (List.mem_cons_of_mem _ (List.mem_of_mem_drop htlmem))
    have hsteady := runCalls_same_minute M hM (rest.take 16383) 0 hmem1 (by omega)
    have hlast : minuteCounter.next ⟨M, 16383⟩ tl = (.error .counterOverflow, ⟨M, 16383⟩) := by
      unfold minuteCounter.next
      rw [if_neg (by simp [hmemtl, hM]), if_pos (by show (16383 : Nat) = counterMask; decide)]
    have hrest : (runCalls ⟨M, 0⟩ rest).1
        = (List.range' 1 16383).map .ok ++ [.error .counterOverflow] := by
      conv_lhs => rw [← hsplit]
      rw [runCalls_append, hsteady]
      simp only [hlen1, Nat.zero_add]
      rw [htl]
      simp only [runCalls, hlast]
    simp only [runCalls, next_fresh, h0, hrest]
    have hr : List.range 16384 = 0 :: List.range' 1 16383 := by
      rw [List.range_eq_range']
      have : (16384 : Nat) = 16383 + 1 := by omega
      rw [this, List.range'_succ]
    rw [hr]
    simp

/-- Witness for C3: 16385 calls, all at 2024-08-18T15:30:00Z. -/
theorem C3_witness :
    (runCalls freshCounter (List.replicate 16385 (mkUTC 2024 8 18 15 30 0 0))).1
      = (List.range 16384).map .ok ++ [.error .counterOverflow] :=
  C3_counter_exhaustion (goMinuteIndex (mkUTC 2024 8 18 15 30 0 0)) (by decide)
    (List.replicate 16385 (mkUTC 2024 8 18 15 30 0 0)) (by rw [List.length_replicate])
    (fun t ht => by rw [List.eq_of_mem_replicate ht])

/-- At Go's zero-time minute the counter's `IsZero` sentinel makes every
call reset: the run returns only zeros and never overflows. -/
theorem runCalls_zero_minute (t : Int) (ht : goMinuteIndex t = 0) :
    ∀ n, runCalls freshCounter (List.replicate n t)
      = (List.replicate n (.ok 0), freshCounter) := by
  have hnext : minuteCounter.next freshCounter t = (.ok 0, freshCounter) := by
    rw [next_fresh, ht]; rfl
  intro n
  induction n with
  | zero => simp [runCalls]
  | succ n ih =>
    rw [List.replicate_succ]
    simp only [runCalls, hnext, ih]
    rw [List.replicate_succ]

/-- C3 as stated is false at the minute of Go's zero time 0001-01-01T00:00Z:
the fresh counter's `IsZero` sentinel equals that stored minute, so every
call resets and returns 0 — the second call already returns 0 instead of
1, and the 16385th call does not fail. -/
theorem C3_counterexample :
    (∀ t ∈ List.replicate 16385 (mkUTC 1 1 1 0 0 0 0),
        goMinuteIndex t = goMinuteIndex (mkUTC 1 1 1 0 0 0 0)) ∧
    (List.replicate 16385 (mkUTC 1 1 1 0 0 0 0)).length = 16385 ∧
    (runCalls freshCounter (List.replicate 16385 (mkUTC 1 1 1 0 0 0 0))).1
      ≠ (List.range 16384).map .ok ++ [.error .counterOverflow] := by
  refine ⟨fun t ht => by rw [List.eq_of_mem_replicate ht], by rw [List.length_replicate], ?_⟩
  rw [runCalls_zero_minute (mkUTC 1 1 1 0 0 0 0) (by decide) 16385]
  intro h
  have h1 := congrArg (fun l => l[1]?) h
  simp only [List.getElem?_replicate] at h1
  rw [List.getElem?_append_left (by simp)] at h1
  simp [List.getElem?_range] at h1

/-- The reset branch of `next`: an uninitialized or stale stored minute
yields 0 and the state `(new minute, 0)`. -/
theorem next_reset (mc : minuteCounter) (t : Int)
    (h : mc.minute = 0 ∨ mc.minute ≠ goMinuteIndex t) :
    mc.next t = (.ok 0, ⟨goMinuteIndex t, 0⟩) := by
  unfold minuteCounter.next
  rw [if_pos h]

/-- C8: whenever the stored minute differs from the timestamp's UTC minute,
or the counter is uninitialized, `next` succeeds with 0 and the state
becomes `(new minute, 0)`, regardless of the previous value. -/
theorem C8_minute_rollover (mc : minuteCounter) (t : Int)
    (h : mc.minute = 0 ∨ mc.minute ≠ goMinuteIndex t) :
    mc.next t = (.ok 0, ⟨goMinuteIndex t, 0⟩) :=
  next_reset mc t h

/-- Witness for C8: a counter that last served minute index 5 with value
7777, called at 2024-08-18T15:30:00Z. -/
theorem C8_witness :
    minuteCounter.next ⟨5, 7777⟩ (mkUTC 2024 8 18 15 30 0 0)
      = (.ok 0, ⟨goMinuteIndex (mkUTC 2024 8 18 15 30 0 0), 0⟩) :=
  C8_minute_rollover ⟨5, 7777⟩ (mkUTC 2024 8 18 15 30 0 0) (Or.inr (by decide))

/-- C10: when the counter is saturated for the current minute, `next`
returns the overflow error and leaves the state exactly as it was; a later
call in a different minute still resets and returns 0. -/
theorem C10_overflow_preserves_state (mc : minuteCounter) (t : Int)
    (h0 : mc.minute ≠ 0) (heq : mc.minute = goMinuteIndex t)
    (hv : mc.value = counterMask) :
    mc.next t = (.error .counterOverflow, mc) ∧
    ∀ t', goMinuteIndex t' ≠ mc.minute →
      ((mc.next t).2).next t' = (.ok 0, ⟨goMinuteIndex t', 0⟩) := by
  have hmain : mc.next t = (.error .counterOverflow, mc) := by
    unfold minuteCounter.next
    rw [if_neg (by push_neg; exact ⟨h0, heq⟩), if_pos hv]
  refine ⟨hmain, fun t' ht' => ?_⟩
  rw [hmain]
  exact next_reset mc t' (Or.inr (fun hEq => ht' hEq.symm))

/-- Witness for C10: a saturated counter at the minute of
2024-08-18T15:30Z, then a call at 15:31Z. -/
theorem C10_witness :
    minuteCounter.next ⟨goMinuteIndex (mkUTC 2024 8 18 15 30 0 0), 16383⟩
        (mkUTC 2024 8 18 15 30 0 0)
      = (.error .counterOverflow, ⟨goMinuteIndex (mkUTC 2024 8 18 15 30 0 0), 16383⟩) ∧
    ((minuteCounter.next ⟨goMinuteIndex (mkUTC 2024 8 18 15 30 0 0), 16383⟩
        (mkUTC 2024 8 18 15 30 0 0)).2).next (mkUTC 2024 8 18 15 31 0 0)
      = (.ok 0, ⟨goMinuteIndex (mkUTC 2024 8 18 15 31 0 0), 0⟩) := by
  have h := C10_overflow_preserves_state
    ⟨goMinuteIndex (mkUTC 2024 8 18 15 30 0 0), 16383⟩ (mkUTC 2024 8 18 15 30 0 0)
    (by decide) rfl (by decide)
  exact ⟨h.1, h.2 (mkUTC 2024 8 18 15 31 0 0) (by decide)⟩

/-! ## Text round-trip -/

/-- Every 5-bit value decodes back from its alphabet character. -/
theorem decode_encChar : ∀ d, d < 32 → decodeAlphabet (byteOf (encChar d)) = some d := by
  decide

/-- Alphabet characters are ASCII, hence 1 UTF-8 byte. -/
theorem utf8Size_encChar : ∀ d, d < 32 → (encChar d).utf8Size = 1 := by
  decide

/-- The byte length of the encoder output: one byte per iteration. -/
theorem goLen_encodeLoop : ∀ (n value : Nat) (acc : List Char),
    goLen (encodeLoop n value acc) = n + goLen acc := by
  intro n
  induction n with
  | zero => intro value acc; rw [encodeLoop]; omega
  | succ n ih =>
    intro value acc
    rw [encodeLoop, ih]
    have hmask : value &&& 31 = value % 32 := by
      have h := Nat.and_pow_two_sub_one_eq_mod value 5
      norm_num at h
      exact h
    have hsize : (encChar (value &&& 31)).utf8Size = 1 := by
      rw [hmask]
      exact utf8Size_encChar _ (Nat.mod_lt _ (by norm_num))
    simp [goLen, hsize]
    omega

/-- Feeding the encoder's output through the parser's loop appends the
encoded digits to the accumulator, in base 32. -/
theorem parseLoop_encodeLoop : ∀ (n value a : Nat) (acc : List Char),
    parseLoop (encodeLoop n value acc) a = parseLoop acc (a * 32 ^ n + value % 32 ^ n) := by
  intro n
  induction n with
  | zero =>
    intro value a acc
    rw [encodeLoop, pow_zero, Nat.mul_one, Nat.mod_one, Nat.add_zero]
  | succ n ih =>
    intro value a acc
    rw [encodeLoop, ih]
    have hmask : value &&& 31 = value % 32 := by
      simpa using Nat.and_pow_two_sub_one_eq_mod value 5
    have hshift : value >>> 5 = value / 32 := by
      rw [Nat.shiftRight_eq_div_pow]
    have hdec : decodeAlphabet (byteOf (encChar (value % 32))) = some (value % 32) :=
      decode_encChar _ (Nat.mod_lt _ (by norm_num))
    rw [hmask, hshift]
    simp only [parseLoop, hdec]
    have hlor : ∀ w : Nat, (w <<< 5) ||| (value % 32) = w * 32 + value % 32 := by
      intro w
      have h := lor_shiftLeft_eq_add w (value % 32) 5 (by norm_num [Nat.mod_lt])
      norm_num at h
      exact h
    rw [hlor]
    have hsplit : value % 32 ^ (n + 1) = value % 32 + 32 * (value / 32 % 32 ^ n) := by
      rw [pow_succ, Nat.mul_comm (32 ^ n) 32]
      exact Nat.mod_mul
    rw [hsplit, pow_succ]
    ring_nf

/-- C4: decode is a left inverse of encode on the whole 40-bit domain. -/
theorem C4_parse_idString_roundtrip (x : Nat) (hx : x < 2 ^ 40) :
    Parse (idString x) = .ok x := by
  unfold Parse idString
  have hlen : goLen (encodeLoop totalSize x []) = totalSize := by
    rw [goLen_encodeLoop]
    simp [goLen]
  rw [if_neg (by simp [hlen])]
  have h8 : totalSize = 8 := rfl
  rw [h8, parseLoop_encodeLoop 8 x 0 []]
  have hxm : x % 32 ^ 8 = x := by
    apply Nat.mod_eq_of_lt
    calc x < 2 ^ 40 := hx
    _ = 32 ^ 8 := by norm_num
  rw [parseLoop, Nat.zero_mul, Nat.zero_add, hxm]

/-- Witness for C4 at the 40-bit value 987654321. -/
theorem C4_witness : Parse (idString 987654321) = .ok 987654321 :=
  C4_parse_idString_roundtrip 987654321 (by norm_num)

/-! ## Character classification -/

/-- The accepted character set named by the spec: the 32 canonical
Crockford symbols, the lowercase forms of its letters, and the ambiguous
aliases `i I l L o O`. -/
def acceptedList : List Char :=
  "0123456789ABCDEFGHJKMNPQRSTVWXYZ".data ++ "abcdefghjkmnpqrstvwxyz".data ++
    ['i', 'I', 'l', 'L', 'o', 'O']

/-- Every accepted character is ASCII. -/
theorem accepted_ascii : ∀ c ∈ acceptedList, c.toNat < 128 := by decide

/-- On ASCII byte values, the decode map is defined exactly on the accepted
set. -/
theorem decode_byte_accepted :
    ∀ b, b < 128 → ((decodeAlphabet b).isSome = true ↔ Char.ofNat b ∈ acceptedList) := by
  decide

/-- For an ASCII character the Go byte truncation is the identity. -/
theorem byteOf_ascii {c : Char} (h : c.toNat < 128) : byteOf c = c.toNat :=
  Nat.mod_eq_of_lt (by omega)

/-- For an ASCII character, decodability coincides with membership in the
accepted set. -/
theorem decode_isSome_iff {c : Char} (h : c.toNat < 128) :
    (decodeAlphabet (byteOf c)).isSome = true ↔ c ∈ acceptedList := by
  have hb := decode_byte_accepted c.toNat h
  rw [Char.ofNat_toNat] at hb
  rw [byteOf_ascii h]
  exact hb

/-- A character is a single UTF-8 byte exactly when it is ASCII. -/
theorem utf8Size_one_iff (c : Char) : c.utf8Size = 1 ↔ c.toNat < 128 := by
  have h7f : (UInt32.ofNatCore 0x7F (by decide)).toBitVec.toNat = 127 := rfl
  have hc : c.toNat = c.val.toBitVec.toNat := rfl
  have haux : ¬ c.val ≤ UInt32.ofNatCore 0x7F (by decide) → ¬ c.toNat < 128 := by
    intro hn hlt
    exact hn (UInt32.le_def.mpr (BitVec.le_def.mpr (by rw [h7f]; omega)))
  simp only [Char.utf8Size]
  split_ifs with h1 h2 h3
  · have h := BitVec.le_def.mp (UInt32.le_def.mp h1)
    rw [h7f] at h
    exact iff_of_true rfl (by omega)
  · exact iff_of_false (by norm_num) (haux h1)
  · exact iff_of_false (by norm_num) (haux h1)
  · exact iff_of_false (by norm_num) (haux h1)

/-- `goLen` of a cons. -/
theorem goLen_cons (c : Char) (s : List Char) : goLen (c :: s) = c.utf8Size + goLen s := by
  simp [goLen]

/-- Byte length dominates character count. -/
theorem length_le_goLen (s : List Char) : s.length ≤ goLen s := by
  induction s with
  | nil => simp [goLen]
  | cons c s ih =>
    rw [goLen_cons]
    have := Char.utf8Size_pos c
    simp only [List.length_cons]
    omega

/-- On all-ASCII strings the Go byte length is the character count. -/
theorem goLen_eq_length_of_ascii (s : List Char) (h : ∀ c ∈ s, c.toNat < 128) :
    goLen s = s.length := by
  induction s with
  | nil => simp [goLen]
  | cons c s ih =>
    rw [goLen_cons, (utf8Size_one_iff c).mpr (h c (by simp)), List.length_cons,
      ih (fun u hu => h u (by simp [hu]))]
    omega

/-- A non-ASCII character makes the byte length exceed the character
count. -/
theorem goLen_gt_of_nonascii (s : List Char) (c : Char) (hc : c ∈ s)
    (h : ¬ c.toNat < 128) : s.length < goLen s := by
  obtain ⟨l1, l2, rfl⟩ := List.append_of_mem hc
  have h2 : 2 ≤ c.utf8Size := by
    have hp := Char.utf8Size_pos c
    have h1 : c.utf8Size ≠ 1 := fun h1 => h ((utf8Size_one_iff c).mp h1)
    omega
  have e1 := length_le_goLen l1
  have e2 := length_le_goLen l2
  simp only [goLen, List.map_append, List.sum_append, List.map_cons, List.sum_cons,
    List.length_append, List.length_cons] at e1 e2 ⊢
  omega

/-- Strings whose byte count is not 8 make the Go byte length exceed: this
string is ASCII exactly when its byte length equals its character count. -/
theorem ascii_of_goLen_eq (s : List Char) (h : goLen s = s.length) :
    ∀ c ∈ s, c.toNat < 128 := by
  intro c hc
  by_contra hna
  have := goLen_gt_of_nonascii s c hc hna
  omega

/-- `Parse` past the length check. -/
theorem Parse_eq_parseLoop {s : List Char} (h : goLen s = 8) : Parse s = parseLoop s 0 := by
  unfold Parse
  rw [if_neg (by simp [h, totalSize])]

/-! ## The parse loop and bad characters -/

/-- If every byte of the string decodes, the loop succeeds. -/
theorem parseLoop_ok_of_decodable : ∀ (s : List Char) (a : Nat),
    (∀ c ∈ s, (decodeAlphabet (byteOf c)).isSome = true) →
    ∃ v, parseLoop s a = .ok v := by
  intro s
  induction s with
  | nil => exact fun a _ => ⟨a, rfl⟩
  | cons c cs ih =>
    intro a hall
    obtain ⟨w, hw⟩ := Option.isSome_iff_exists.mp (hall c (by simp))
    obtain ⟨v, hv⟩ := ih ((a <<< 5) ||| w) (fun u hu => hall u (by simp [hu]))
    exact ⟨v, by simp only [parseLoop, hw]; exact hv⟩

/-- The loop only reports invalid characters that are actually in the
string and actually undecodable. -/
theorem parseLoop_invalid : ∀ (s : List Char) (a b : Nat),
    parseLoop s a = .error (.errInvalidChar b) →
    ∃ c ∈ s, byteOf c = b ∧ decodeAlphabet (byteOf c) = none := by
  intro s
  induction s with
  | nil => intro a b h; exact absurd h (by simp [parseLoop])
  | cons c cs ih =>
    intro a b h
    simp only [parseLoop] at h
    cases hd : decodeAlphabet (byteOf c) with
    | none =>
      rw [hd] at h
      have hbc : byteOf c = b := Err.errInvalidChar.inj (Except.error.inj h)
      exact ⟨c, by simp, hbc, hd⟩
    | some w =>
      rw [hd] at h
      obtain ⟨u, hu, hub, hnone⟩ := ih _ b h
      exact ⟨u, by simp [hu], hub, hnone⟩

/-- An undecodable byte anywhere in the string makes the loop fail with an
invalid-character error. -/
theorem parseLoop_error_of_none : ∀ (s : List Char) (a : Nat),
    (∃ c ∈ s, decodeAlphabet (byteOf c) = none) →
    ∃ b, parseLoop s a = .error (.errInvalidChar b) := by
  intro s
  induction s with
  | nil =>
    rintro a ⟨c, hc, _⟩
    exact absurd hc (by simp)
  | cons c cs ih =>
    rintro a ⟨u, hu, hnone⟩
    cases hd : decodeAlphabet (byteOf c) with
    | none => exact ⟨byteOf c, by simp only [parseLoop, hd]⟩
    | some w =>
      rcases List.mem_cons.mp hu with rfl | hu'
      · rw [hd] at hnone
        exact absurd hnone (by simp)
      · obtain ⟨b, hb⟩ := ih ((a <<< 5) ||| w) ⟨u, hu', hnone⟩
        exact ⟨b, by simp only [parseLoop, hd]; exact hb⟩

/-- C6 (amended): among 8-character strings, for the ASCII ones (the only
ones whose Go byte length is 8) `Parse` fails with the invalid-character
error exactly when some character is outside the accepted set; for every
8-character string a character outside the accepted set prevents
acceptance (a non-ASCII character instead yields the length error, since
Go's `len` counts UTF-8 bytes); and any reported invalid character is an
actual out-of-set character of the string. -/
theorem C6_invalid_character (s : List Char) (hlen : s.length = 8) :
    ((∀ c ∈ s, c.toNat < 128) →
      ((∃ b, Parse s = .error (.errInvalidChar b)) ↔ ∃ c ∈ s, c ∉ acceptedList)) ∧
    ((∃ c ∈ s, c ∉ acceptedList) → ∀ v, Parse s ≠ .ok v) ∧
    (∀ b, Parse s = .error (.errInvalidChar b) →
      ∃ c ∈ s, byteOf c = b ∧ c ∉ acceptedList) := by
  refine ⟨?_, ?_, ?_⟩
  · intro hascii
    have hgl : goLen s = 8 := by rw [goLen_eq_length_of_ascii s hascii, hlen]
    rw [Parse_eq_parseLoop hgl]
    constructor
    · rintro ⟨b, hb⟩
      obtain ⟨c, hc, _, hnone⟩ := parseLoop_invalid s 0 b hb
      refine ⟨c, hc, fun hmem => ?_⟩
      have hs := (decode_isSome_iff (hascii c hc)).mpr hmem
      rw [hnone] at hs
      exact absurd hs (by simp)
    · rintro ⟨c, hc, hnacc⟩
      refine parseLoop_error_of_none s 0 ⟨c, hc, ?_⟩
      have hns : ¬ (decodeAlphabet (byteOf c)).isSome = true :=
        fun hs => hnacc ((decode_isSome_iff (hascii c hc)).mp hs)
      exact Option.not_isSome_iff_eq_none.mp hns
  · rintro ⟨c, hc, hnacc⟩ v hok
    by_cases hall : ∀ u ∈ s, u.toNat < 128
    · have hgl : goLen s = 8 := by rw [goLen_eq_length_of_ascii s hall, hlen]
      have hns : ¬ (decodeAlphabet (byteOf c)).isSome = true :=
        fun hs => hnacc ((decode_isSome_iff (hall c hc)).mp hs)
      obtain ⟨b, hb⟩ := parseLoop_error_of_none s 0
        ⟨c, hc, Option.not_isSome_iff_eq_none.mp hns⟩
      rw [Parse_eq_parseLoop hgl, hb] at hok
      exact absurd hok (by simp)
    · push_neg at hall
      obtain ⟨u, hu, hna⟩ := hall
      have hlt := goLen_gt_of_nonascii s u hu (by omega)
      unfold Parse at hok
      rw [if_pos (by have h8 : (totalSize : Nat) = 8 := rfl; omega)] at hok
      exact absurd hok (by simp)
  · intro b hb
    unfold Parse at hb
    split_ifs at hb with hgl
    · exact absurd (Except.error.inj hb) (by simp)
    · obtain ⟨c, hc, hcb, hnone⟩ := parseLoop_invalid s 0 b hb
      by_cases hac : c.toNat < 128
      · refine ⟨c, hc, hcb, fun hmem => ?_⟩
        have hs := (decode_isSome_iff hac).mpr hmem
        rw [hnone] at hs
        exact absurd hs (by simp)
      · exact ⟨c, hc, hcb, fun hmem => hac (accepted_ascii c hmem)⟩

/-- Witness for C6: `"0123456!"` (all ASCII, contains `!`) is rejected
with an invalid-character error. -/
theorem C6_witness : ∃ b, Parse "0123456!".data = .error (.errInvalidChar b) :=
  ((C6_invalid_character "0123456!".data (by decide)).1 (by decide)).mpr
    ⟨'!', by decide, by decide⟩

/-- C6 as stated is false for non-ASCII strings: the 8-character string
`Ā0000000` contains the out-of-set character `Ā`, yet `Parse` reports the
length error (its UTF-8 form is 9 bytes), not the invalid-character
error. -/
theorem C6_counterexample :
    ('Ā' :: "0000000".data).length = 8 ∧
    (∃ c ∈ ('Ā' :: "0000000".data), c ∉ acceptedList) ∧
    ¬ (∃ b, Parse ('Ā' :: "0000000".data) = .error (.errInvalidChar b)) := by
  refine ⟨by decide, ⟨'Ā', by decide, by decide⟩, ?_⟩
  rintro ⟨b, hb⟩
  have hp : Parse ('Ā' :: "0000000".data) = .error .errLength := by decide
  rw [hp] at hb
  exact absurd (Except.error.inj hb) (by simp)

/-! ## Glyph folding -/

/-- Each variant glyph with its canonical form: the lowercase of every
alphabet letter, and the ambiguous aliases folded to `1` and `0`. -/
def canonPairs : List (Char × Char) :=
  [('a', 'A'), ('b', 'B'), ('c', 'C'), ('d', 'D'), ('e', 'E'), ('f', 'F'),
   ('g', 'G'), ('h', 'H'), ('j', 'J'), ('k', 'K'), ('m', 'M'), ('n', 'N'),
   ('p', 'P'), ('q', 'Q'), ('r', 'R'), ('s', 'S'), ('t', 'T'), ('v', 'V'),
   ('w', 'W'), ('x', 'X'), ('y', 'Y'), ('z', 'Z'),
   ('i', '1'), ('I', '1'), ('l', '1'), ('L', '1'), ('o', '0'), ('O', '0')]

/-- The canonical form of a character: its listed replacement, or itself. -/
def canonChar (c : Char) : Char :=
  match canonPairs.find? (fun p => p.1 == c) with
  | some p => p.2
  | none => c

/-- Every listed pair decodes identically, and both sides are ASCII. -/
theorem canonPairs_decode : ∀ p ∈ canonPairs,
    decodeAlphabet (byteOf p.1) = decodeAlphabet (byteOf p.2) ∧
      p.1.toNat < 128 ∧ p.2.toNat < 128 := by
  decide

/-- Inversion of a successful pair lookup. -/
theorem find?_canonPairs {c : Char} {p : Char × Char}
    (h : canonPairs.find? (fun q => q.1 == c) = some p) :
    p ∈ canonPairs ∧ p.1 = c :=
  ⟨List.mem_of_find?_eq_some h, by simpa using List.find?_some h⟩

/-- Canonicalization does not change the decoded value. -/
theorem decode_canonChar (c : Char) :
    decodeAlphabet (byteOf (canonChar c)) = decodeAlphabet (byteOf c) := by
  unfold canonChar
  cases hf : canonPairs.find? (fun q => q.1 == c) with
  | none => rfl
  | some p =>
    obtain ⟨hp, hpc⟩ := find?_canonPairs hf
    rw [← hpc]
    exact ((canonPairs_decode p hp).1).symm

/-- `canonChar` on a character with no listed replacement. -/
theorem canonChar_eq_of_find_none {c : Char}
    (hf : canonPairs.find? (fun q => q.1 == c) = none) : canonChar c = c := by
  unfold canonChar
  rw [hf]

/-- `canonChar` on a character with a listed replacement. -/
theorem canonChar_eq_of_find_some {c : Char} {p : Char × Char}
    (hf : canonPairs.find? (fun q => q.1 == c) = some p) : canonChar c = p.2 := by
  unfold canonChar
  rw [hf]

/-- Characters canonically equal to an ASCII character are ASCII. -/
theorem ascii_of_canon_eq {c c' : Char} (h : canonChar c' = canonChar c)
    (hc : c.toNat < 128) : c'.toNat < 128 := by
  cases hf' : canonPairs.find? (fun q => q.1 == c') with
  | some p' =>
    obtain ⟨hp', hpc'⟩ := find?_canonPairs hf'
    rw [← hpc']
    exact (canonPairs_decode p' hp').2.1
  | none =>
    have e' := canonChar_eq_of_find_none hf'
    cases hf : canonPairs.find? (fun q => q.1 == c) with
    | some p =>
      obtain ⟨hp, _⟩ := find?_canonPairs hf
      have e := canonChar_eq_of_find_some hf
      rw [← e', h, e]
      exact (canonPairs_decode p hp).2.2
    | none =>
      have e := canonChar_eq_of_find_none hf
      rw [← e', h, e]
      exact hc

/-- Canonically related strings of ASCII characters have the same byte
length. -/
theorem goLen_eq_of_canon_rel : ∀ {s s' : List Char},
    List.Forall₂ (fun c c' => canonChar c = canonChar c') s s' →
    (∀ c ∈ s, c.toNat < 128) → goLen s' = goLen s := by
  intro s s' hrel
  induction hrel with
  | nil => intro; rfl
  | @cons c c' cs cs' hcc htail ih =>
    intro hascii
    have hac : c.toNat < 128 := hascii c (by simp)
    have hac' : c'.toNat < 128 := ascii_of_canon_eq hcc.symm hac
    rw [goLen_cons, goLen_cons, (utf8Size_one_iff c).mpr hac,
      (utf8Size_one_iff c').mpr hac', ih (fun u hu => hascii u (by simp [hu]))]

/-- The parse loop returns the same successful value on strings whose
bytes decode identically position by position. -/
theorem parseLoop_ok_congr : ∀ {s s' : List Char},
    List.Forall₂ (fun c c' => decodeAlphabet (byteOf c) = decodeAlphabet (byteOf c')) s s' →
    ∀ (a v : Nat), parseLoop s a = .ok v → parseLoop s' a = .ok v := by
  intro s s' hrel
  induction hrel with
  | nil => exact fun a v h => h
  | @cons c c' cs cs' hcc htail ih =>
    intro a v hok
    simp only [parseLoop] at hok ⊢
    cases hd : decodeAlphabet (byteOf c) with
    | none =>
      rw [hd] at hok
      exact absurd hok (by simp)
    | some w =>
      rw [hd] at hok
      rw [← hcc, hd]
      exact ih _ _ hok

/-- C9: `Parse` folds `i I l L` to the value 1, `o O` to the value 0, and
every lowercase alphabet letter to its uppercase value, so two length-8
strings that agree up to case and these glyph substitutions (equal
canonical forms position by position) parse to the same 40-bit value. -/
theorem C9_glyph_folding :
    (decodeAlphabet (byteOf 'i') = some 1 ∧ decodeAlphabet (byteOf 'I') = some 1 ∧
     decodeAlphabet (byteOf 'l') = some 1 ∧ decodeAlphabet (byteOf 'L') = some 1 ∧
     decodeAlphabet (byteOf 'o') = some 0 ∧ decodeAlphabet (byteOf 'O') = some 0) ∧
    (∀ p ∈ canonPairs, decodeAlphabet (byteOf p.1) = decodeAlphabet (byteOf p.2)) ∧
    (∀ s s' : List Char, s.length = 8 →
      List.Forall₂ (fun c c' => canonChar c = canonChar c') s s' →
      ∀ v, Parse s = .ok v → Parse s' = .ok v) := by
  refine ⟨by decide, fun p hp => (canonPairs_decode p hp).1, ?_⟩
  intro s s' hlen hrel v hok
  have hgl : goLen s = 8 := by
    by_contra hne
    unfold Parse at hok
    rw [if_pos (by simpa [totalSize] using hne)] at hok
    exact absurd hok (by simp)
  have hascii : ∀ c ∈ s, c.toNat < 128 :=
    ascii_of_goLen_eq s (by rw [hgl, hlen])
  have hgl' : goLen s' = 8 := by rw [goLen_eq_of_canon_rel hrel hascii, hgl]
  have hrel' : List.Forall₂
      (fun c c' => decodeAlphabet (byteOf c) = decodeAlphabet (byteOf c')) s s' := by
    refine hrel.imp ?_
    intro c c' hcc
    rw [← decode_canonChar c, ← decode_canonChar c', hcc]
  rw [Parse_eq_parseLoop hgl] at hok
  rw [Parse_eq_parseLoop hgl']
  exact parseLoop_ok_congr hrel' 0 v hok

/-- Witness for C9: `"0123ABCD"` and `"0l23abcd"` agree up to case and
glyph substitution and parse to the same value. -/
theorem C9_witness : Parse "0l23abcd".data = .ok 1144335757 :=
  C9_glyph_folding.2.2 "0123ABCD".data "0l23abcd".data (by decide)
    (by decide) 1144335757 (by decide)

end Miniulid

